import Mathlib

/-!
Shallow embedding of `src/backend/apps/payments/debt_simplifier.py`
(`class DebtSimplifier`).

Modelling conventions:
* `Decimal` amounts are modelled as `ℚ` (the code only adds, subtracts,
  negates, compares and takes `min` of decimals, all exact operations).
* Python `dict` (insertion ordered) is modelled as an association list
  kept in insertion order.
* Python's stable `list.sort(key=lambda x: x[1], reverse=True)` is
  modelled by `List.insertionSort` with the relation `y.2 ≤ x.2`
  (descending by amount); `List.insertionSort` inserts the earlier
  element in front of later equal elements, which is exactly the
  stability guarantee of CPython's sort.
* The one fallible function, `_merge_transactions`, mutates the
  `direct_txns` dictionary while iterating over `direct_txns.items()`.
  In CPython a `del` on the dictionary makes the very next call of the
  item iterator raise `RuntimeError: dictionary changed size during
  iteration` (the size check precedes the exhaustion check, so the
  error also fires when the loop would otherwise have ended).  Hence
  the function raises if and only if some merge step deletes an edge;
  it is modelled as `Except String _` and returns the error as soon as
  a deletion happens (the Python loop body finishes its current
  iteration first, but the state it builds is discarded by the raised
  exception, so the results agree).
-/

namespace DebtSimplifier

/-- The tolerance constant `Decimal('0.01')` used throughout the source. -/
def eps : ℚ := 1 / 100

/-- One settlement transaction `{'from': ..., 'to': ..., 'amount': ...}`. -/
structure Txn where
  from_user : String
  to_user : String
  amount : ℚ
deriving DecidableEq, Repr

/-- Python's stable descending sort `xs.sort(key=lambda x: x[1], reverse=True)`. -/
def sortDesc (l : List (String × ℚ)) : List (String × ℚ) :=
  List.insertionSort (fun x y => y.2 ≤ x.2) l

/-- Inner loop of the greedy matching of `simplify_debts` (lines 49-76):
one creditor `(cid, ca)` consumes debtors until the creditor's remainder
drops below `eps`; returns the emitted transactions and the remaining
debtor list.  The source advances `creditor_idx` when the creditor
remainder is `< 0.01` and `debtor_idx` when the debtor remainder is
`< 0.01`; since the transferred amount is `min ca da`, at least one
remainder is `0 < 0.01` at every step, so the case where neither index
advances is unreachable and the final `else` branch (creditor remainder
still `≥ eps`, hence `t = da` and the debtor remainder is `0`) advances
the debtor exactly as the source does. -/
def greedyAux : String × ℚ → List (String × ℚ) → List Txn × List (String × ℚ)
  | _, [] => ([], [])
  | (cid, ca), (did, da) :: ds =>
    let t := min ca da
    let txns : List Txn := if eps < t then [⟨did, cid, t⟩] else []
    if ca - t < eps then
      if da - t < eps then (txns, ds) else (txns, (did, da - t) :: ds)
    else
      let rest := greedyAux (cid, ca - t) ds
      (txns ++ rest.1, rest.2)

/-- The greedy matching loop of `simplify_debts` (lines 49-76) over the
sorted creditor and debtor lists. -/
def greedyMatch : List (String × ℚ) → List (String × ℚ) → List Txn
  | [], _ => []
  | c :: cs, ds =>
    let step := greedyAux c ds
    step.1 ++ greedyMatch cs step.2

/-- Line 29-33: entries of `balances` with `abs(balance) > Decimal('0.01')`. -/
def netBalancesOf (balances : List (String × ℚ)) : List (String × ℚ) :=
  balances.filter (fun x => decide (eps < |x.2|))

/-- Line 39: `creditors = [(uid, bal) for uid, bal in net_balances if bal > 0]`. -/
def creditorsOf (balances : List (String × ℚ)) : List (String × ℚ) :=
  (netBalancesOf balances).filter (fun x => decide (0 < x.2))

/-- Line 40: `debtors = [(uid, -bal) for uid, bal in net_balances if bal < 0]`. -/
def debtorsOf (balances : List (String × ℚ)) : List (String × ℚ) :=
  ((netBalancesOf balances).filter (fun x => decide (x.2 < 0))).map (fun x => (x.1, -x.2))

/-- `DebtSimplifier.simplify_debts` (lines 17-76).  The source's early
`return []` for an empty `net_balances` coincides with the greedy loop
on empty lists, so it needs no separate branch. -/
def simplify_debts (balances : List (String × ℚ)) : List Txn :=
  greedyMatch (sortDesc (creditorsOf balances)) (sortDesc (debtorsOf balances))

/-- `graph[from_user][to_user] += amount` on the inner dictionary:
update the value if `to_user` is present, otherwise append it. -/
def addToInner (to_user : String) (amount : ℚ) : List (String × ℚ) → List (String × ℚ)
  | [] => [(to_user, amount)]
  | (t, a) :: rest =>
    if t = to_user then (t, a + amount) :: rest else (t, a) :: addToInner to_user amount rest

/-- `graph[from_user][to_user] += amount` on the outer dictionary. -/
def addToGraph (from_user to_user : String) (amount : ℚ) :
    List (String × List (String × ℚ)) → List (String × List (String × ℚ))
  | [] => [(from_user, [(to_user, amount)])]
  | (f, inner) :: rest =>
    if f = from_user then (f, addToInner to_user amount inner) :: rest
    else (f, inner) :: addToGraph from_user to_user amount rest

/-- Lines 169-175: build the `graph` dictionary from the transaction list. -/
def buildGraph (transactions : List Txn) : List (String × List (String × ℚ)) :=
  transactions.foldl (fun g txn => addToGraph txn.from_user txn.to_user txn.amount g) []

/-- Lines 183-186: `direct_txns[(from_user, to_user)] = amount`, iterating
the graph in insertion order of `from_user`, then of `to_user`. -/
def directOf (g : List (String × List (String × ℚ))) : List ((String × String) × ℚ) :=
  g.flatMap (fun fi => fi.2.map (fun ti => ((fi.1, ti.1), ti.2)))

/-- Dictionary membership / read `direct_txns[(a, b)]`. -/
def lookupPair (k : String × String) (d : List ((String × String) × ℚ)) : Option ℚ :=
  (d.find? (fun e => decide (e.1 = k))).map (fun e => e.2)

/-- `direct_txns[(a, b)] -= m` (the key is known to be present). -/
def subPair (k : String × String) (m : ℚ) (d : List ((String × String) × ℚ)) :
    List ((String × String) × ℚ) :=
  d.map (fun e => if e.1 = k then (e.1, e.2 - m) else e)

/-- `del direct_txns[(a, b)]`. -/
def delPair (k : String × String) (d : List ((String × String) × ℚ)) :
    List ((String × String) × ℚ) :=
  d.filter (fun e => decide (e.1 ≠ k))

/-- Lines 196-218: the `for intermediate in graph.keys()` search for the
current pair `(f, t)` holding `amount`.  Returns `none` when no
intermediate triggers the `break`; otherwise `some (m, direct', deleted)`
with the merged amount `m`, the updated `direct_txns`, and whether a
`del` fired (which makes the enclosing iteration raise). -/
def scanIntermediates (f t : String) (amount : ℚ)
    (direct : List ((String × String) × ℚ)) :
    List String → Option (ℚ × List ((String × String) × ℚ) × Bool)
  | [] => none
  | b :: bs =>
    if b = f ∨ b = t then scanIntermediates f t amount direct bs
    else
      match lookupPair (f, b) direct, lookupPair (b, t) direct with
      | some a2b, some b2c =>
        let m := min amount (min a2b b2c)
        if eps < m then
          let d1 := subPair (f, b) m direct
          let d2 := subPair (b, t) m d1
          let d3 := if a2b - m < eps then delPair (f, b) d2 else d2
          let d4 := if b2c - m < eps then delPair (b, t) d3 else d3
          some (m, d4, decide (a2b - m < eps) || decide (b2c - m < eps))
        else scanIntermediates f t amount direct bs
      | _, _ => scanIntermediates f t amount direct bs

/-- Mutable state of the second pass of `_merge_transactions`. -/
structure MergeState where
  direct : List ((String × String) × ℚ)
  merged : List Txn
  processed : List (String × String)
deriving DecidableEq, Repr

/-- Lines 189-224: the `for (from_user, to_user), amount in
direct_txns.items()` loop.  `keys` is the fixed `graph.keys()` order and
the first argument the fixed key order of `direct_txns` at loop entry
(keys can only disappear through a `del`, which raises before the next
item is requested; the unreachable `none` branch of the lookup is mapped
to the same error). -/
def mergePass (keys : List String) :
    List (String × String) → MergeState → Except String MergeState
  | [], st => .ok st
  | k :: ks, st =>
    if k ∈ st.processed then mergePass keys ks st
    else
      match lookupPair k st.direct with
      | none => .error "dictionary changed size during iteration"
      | some amount =>
        match scanIntermediates k.1 k.2 amount st.direct keys with
        | none =>
          if eps < amount then
            mergePass keys ks
              ⟨st.direct, st.merged ++ [⟨k.1, k.2, amount⟩], st.processed ++ [k]⟩
          else mergePass keys ks st
        | some (m, d', deleted) =>
          if deleted then .error "dictionary changed size during iteration"
          else if eps < m then
            mergePass keys ks ⟨d', st.merged ++ [⟨k.1, k.2, m⟩], st.processed ++ [k]⟩
          else mergePass keys ks ⟨d', st.merged, st.processed⟩

/-- `DebtSimplifier._merge_transactions` (lines 153-236). -/
def _merge_transactions (transactions : List Txn) : Except String (List Txn) :=
  if transactions.isEmpty then .ok []
  else
    let graph := buildGraph transactions
    let direct := directOf graph
    match mergePass (graph.map Prod.fst) (direct.map Prod.fst) ⟨direct, [], []⟩ with
    | .error e => .error e
    | .ok st =>
      .ok (st.merged ++
        (st.direct.filter
            (fun e => decide (eps < e.2) && decide (e.1 ∉ st.processed))).map
          (fun e => ⟨e.1.1, e.1.2, e.2⟩))

/-- `DebtSimplifier.minimize_transactions` (lines 128-151).  The source
first calls `find_cycles` and discards the result (`cycles` is never
used); that call performs no observable effect and cannot raise (the
debt graph it builds has edges only from positive-balance to
negative-balance participants, so its DFS has depth at most two), so it
is not modelled. -/
def minimize_transactions (balances : List (String × ℚ)) : Except String (List Txn) :=
  _merge_transactions (simplify_debts balances)

/-- Modelled from the spec (§3 SettlementTransaction): applying one
transaction to a balance map — "from's balance decreases by amount,
to's balance increases by amount". -/
def applyTxn (bal : List (String × ℚ)) (t : Txn) : List (String × ℚ) :=
  bal.map (fun x =>
    if x.1 = t.from_user then (x.1, x.2 - t.amount)
    else if x.1 = t.to_user then (x.1, x.2 + t.amount)
    else x)

/-- Modelled from the spec (§8 Settlement correctness): applying the
output transactions in order to the balance map. -/
def applySettlement (bal : List (String × ℚ)) (txns : List Txn) : List (String × ℚ) :=
  txns.foldl applyTxn bal

/-- Modelled from the spec (C3): a participant's net flow in a
transaction list — total paid minus total received. -/
def netFlow (p : String) (txns : List Txn) : ℚ :=
  ((txns.filter (fun t => decide (t.from_user = p))).map Txn.amount).sum -
    ((txns.filter (fun t => decide (t.to_user = p))).map Txn.amount).sum

/-- The ordered pairs `(from, to)` of a transaction list. -/
def pairsOf (txns : List Txn) : List (String × String) :=
  txns.map (fun t => (t.from_user, t.to_user))

/-- A transaction list is chain-free when its flow graph has no
two-edge chain `(f, b), (b, t)` matching an existing pair `(f, t)` with
an intermediate `b` distinct from both endpoints — exactly the pattern
the second pass of `_merge_transactions` can act on. -/
def ChainFree (txns : List Txn) : Prop :=
  ∀ p ∈ pairsOf txns, ∀ q ∈ pairsOf txns, ∀ r ∈ pairsOf txns,
    q.1 = p.1 → r.2 = p.2 → q.2 = r.1 → q.2 = p.1 ∨ q.2 = p.2

instance (txns : List Txn) : Decidable (ChainFree txns) := by
  unfold ChainFree; exact inferInstance

/-- The transactions a chain-free run of `_merge_transactions` emits:
the aggregated flow edges whose amount exceeds `eps`. -/
def emitOf (d : List ((String × String) × ℚ)) : List Txn :=
  (d.filter (fun e => decide (eps < e.2))).map (fun e => ⟨e.1.1, e.1.2, e.2⟩)

/-- The keys of `ks` whose current value in `d` exceeds `eps` (the pairs a
merge-free second pass marks as processed). -/
def emitKeys (d : List ((String × String) × ℚ)) (ks : List (String × String)) :
    List (String × String) :=
  ks.filter (fun k =>
    match lookupPair k d with
    | some a => decide (eps < a)
    | none => false)

/-- The transactions a merge-free second pass emits while walking `ks`. -/
def emitTxns (d : List ((String × String) × ℚ)) (ks : List (String × String)) : List Txn :=
  ks.filterMap (fun k =>
    match lookupPair k d with
    | some a => if eps < a then some (⟨k.1, k.2, a⟩ : Txn) else none
    | none => none)

/-- The transaction list a graph denotes (its flattened edges, in the
iteration order of `_merge_transactions`). -/
def txnsOfGraph (g : List (String × List (String × ℚ))) : List Txn :=
  g.flatMap (fun fi => fi.2.map (fun ti => ⟨fi.1, ti.1, ti.2⟩))

/-- Drop the sub-`eps` edges of a graph, then the emptied sources. -/
def filterGraph (g : List (String × List (String × ℚ))) :
    List (String × List (String × ℚ)) :=
  (g.map (fun fi => (fi.1, fi.2.filter (fun ti => decide (eps < ti.2))))).filter
    (fun fi => !fi.2.isEmpty)

/-- Well-formedness of the dictionary-of-dictionaries `graph`: no
duplicate outer key and no duplicate inner key. -/
def GraphWF (g : List (String × List (String × ℚ))) : Prop :=
  (g.map Prod.fst).Nodup ∧ ∀ fi ∈ g, (fi.2.map Prod.fst).Nodup

end DebtSimplifier

namespace DebtSimplifier

/-! ### Lemmas about the greedy matching -/

theorem emitIf_length (did cid : String) (m : ℚ) :
    (if eps < m then [(⟨did, cid, m⟩ : Txn)] else []).length ≤ 1 := by
  split <;> simp

theorem mem_emitIf (did cid : String) (m : ℚ) (t : Txn)
    (ht : t ∈ (if eps < m then [(⟨did, cid, m⟩ : Txn)] else [])) :
    t = ⟨did, cid, m⟩ ∧ eps < m := by
  split at ht
  · exact ⟨List.mem_singleton.mp ht, by assumption⟩
  · simp at ht

theorem greedyAux_nil (c : String × ℚ) : greedyAux c [] = ([], []) := by
  obtain ⟨cid, ca⟩ := c; rfl

theorem greedyAux_cons (cid did : String) (ca da : ℚ) (ds : List (String × ℚ)) :
    greedyAux (cid, ca) ((did, da) :: ds) =
      let t := min ca da
      let txns : List Txn := if eps < t then [⟨did, cid, t⟩] else []
      if ca - t < eps then
        if da - t < eps then (txns, ds) else (txns, (did, da - t) :: ds)
      else
        let rest := greedyAux (cid, ca - t) ds
        (txns ++ rest.1, rest.2) := rfl

theorem greedyAux_snd_keys_subset (c : String × ℚ) (ds : List (String × ℚ)) :
    ((greedyAux c ds).2.map Prod.fst) ⊆ ds.map Prod.fst := by
  induction ds generalizing c with
  | nil => obtain ⟨cid, ca⟩ := c; simp [greedyAux_nil]
  | cons d ds ih =>
    obtain ⟨cid, ca⟩ := c; obtain ⟨did, da⟩ := d
    rw [greedyAux_cons]
    simp only []
    split
    · split
      · exact fun x hx => List.mem_cons_of_mem _ hx
      · simp only [List.map_cons]
        exact fun x hx => hx
    · exact fun x hx => List.mem_cons_of_mem _ (ih (cid, ca - min ca da) hx)

theorem greedyAux_mem (c : String × ℚ) (ds : List (String × ℚ)) (t : Txn)
    (ht : t ∈ (greedyAux c ds).1) :
    t.to_user = c.1 ∧ t.from_user ∈ ds.map Prod.fst ∧ eps < t.amount := by
  induction ds generalizing c with
  | nil => obtain ⟨cid, ca⟩ := c; simp [greedyAux_nil] at ht
  | cons d ds ih =>
    obtain ⟨cid, ca⟩ := c; obtain ⟨did, da⟩ := d
    rw [greedyAux_cons] at ht
    simp only [] at ht
    have hemit : t ∈ (if eps < min ca da then [(⟨did, cid, min ca da⟩ : Txn)] else []) →
        t.to_user = cid ∧ t.from_user ∈ ((did, da) :: ds).map Prod.fst ∧ eps < t.amount := by
      intro h'
      obtain ⟨rfl, hm⟩ := mem_emitIf did cid (min ca da) t h'
      exact ⟨rfl, by simp, hm⟩
    split at ht
    · split at ht <;> exact hemit ht
    · rcases List.mem_append.mp ht with h' | h'
      · exact hemit h'
      · obtain ⟨h1, h2, h3⟩ := ih (cid, ca - min ca da) h'
        exact ⟨h1, List.mem_cons_of_mem _ h2, h3⟩

theorem greedyAux_length (c : String × ℚ) (ds : List (String × ℚ)) :
    (greedyAux c ds).1.length + (greedyAux c ds).2.length ≤ ds.length + 1 := by
  induction ds generalizing c with
  | nil => obtain ⟨cid, ca⟩ := c; simp [greedyAux_nil]
  | cons d ds ih =>
    obtain ⟨cid, ca⟩ := c; obtain ⟨did, da⟩ := d
    rw [greedyAux_cons]
    have hemit := emitIf_length did cid (min ca da)
    by_cases hc1 : ca - min ca da < eps
    · by_cases hc2 : da - min ca da < eps
      · simp only [if_pos hc1, if_pos hc2, List.length_cons]
        omega
      · simp only [if_pos hc1, if_neg hc2, List.length_cons]
        omega
    · have hrec := ih (cid, ca - min ca da)
      simp only [if_neg hc1, List.length_append, List.length_cons]
      omega

theorem greedyAux_length_of_snd_nil (c : String × ℚ) (ds : List (String × ℚ))
    (h : (greedyAux c ds).2 = []) : (greedyAux c ds).1.length ≤ ds.length := by
  induction ds generalizing c with
  | nil => obtain ⟨cid, ca⟩ := c; simp [greedyAux_nil]
  | cons d ds ih =>
    obtain ⟨cid, ca⟩ := c; obtain ⟨did, da⟩ := d
    rw [greedyAux_cons] at h ⊢
    have hemit := emitIf_length did cid (min ca da)
    by_cases hc1 : ca - min ca da < eps
    · by_cases hc2 : da - min ca da < eps
      · simp only [if_pos hc1, if_pos hc2, List.length_cons]
        omega
      · simp only [if_pos hc1, if_neg hc2] at h
        exact absurd h (by simp)
    · simp only [if_neg hc1] at h ⊢
      have hrec := ih (cid, ca - min ca da) h
      simp only [List.length_append, List.length_cons]
      omega

theorem greedyMatch_nil_left (ds : List (String × ℚ)) : greedyMatch [] ds = [] := rfl

theorem greedyMatch_cons (c : String × ℚ) (cs ds : List (String × ℚ)) :
    greedyMatch (c :: cs) ds = (greedyAux c ds).1 ++ greedyMatch cs (greedyAux c ds).2 := rfl

theorem greedyMatch_nil_right (cs : List (String × ℚ)) : greedyMatch cs [] = [] := by
  induction cs with
  | nil => rfl
  | cons c cs ih => rw [greedyMatch_cons, greedyAux_nil c]; simpa using ih

theorem greedyMatch_mem (cs : List (String × ℚ)) (t : Txn) :
    ∀ ds : List (String × ℚ), t ∈ greedyMatch cs ds →
      t.to_user ∈ cs.map Prod.fst ∧ t.from_user ∈ ds.map Prod.fst ∧ eps < t.amount := by
  induction cs with
  | nil => intro ds ht; simp [greedyMatch_nil_left] at ht
  | cons c cs ih =>
    intro ds ht
    rw [greedyMatch_cons] at ht
    rcases List.mem_append.mp ht with h' | h'
    · obtain ⟨h1, h2, h3⟩ := greedyAux_mem c ds t h'
      exact ⟨by simp [h1], h2, h3⟩
    · obtain ⟨h1, h2, h3⟩ := ih ((greedyAux c ds).2) h'
      exact ⟨List.mem_cons_of_mem _ h1, greedyAux_snd_keys_subset c ds h2, h3⟩

theorem greedyMatch_length (cs : List (String × ℚ)) :
    ∀ ds : List (String × ℚ), (greedyMatch cs ds).length ≤ cs.length + ds.length - 1 := by
  induction cs with
  | nil => intro ds; simp [greedyMatch_nil_left]
  | cons c cs ih =>
    intro ds
    rw [greedyMatch_cons]
    rcases h : (greedyAux c ds).2 with _ | ⟨d', ds'⟩
    · have h1 := greedyAux_length_of_snd_nil c ds h
      rw [greedyMatch_nil_right cs]
      simp only [List.length_append, List.length_nil, List.length_cons]
      omega
    · have h1 := greedyAux_length c ds
      have h2 := ih (d' :: ds')
      rw [h] at h1
      simp only [List.length_append, List.length_cons] at h1 h2 ⊢
      omega

/-! ### Lemmas about `simplify_debts` -/

theorem sortDesc_perm (l : List (String × ℚ)) : List.Perm (sortDesc l) l :=
  List.perm_insertionSort _ l

theorem sortDesc_length (l : List (String × ℚ)) : (sortDesc l).length = l.length :=
  (sortDesc_perm l).length_eq

theorem mem_sortDesc_keys (l : List (String × ℚ)) (x : String) :
    x ∈ (sortDesc l).map Prod.fst ↔ x ∈ l.map Prod.fst :=
  ((sortDesc_perm l).map Prod.fst).mem_iff

theorem mem_creditorsOf_keys (b : List (String × ℚ)) (k : String)
    (h : k ∈ (creditorsOf b).map Prod.fst) : ∃ v, (k, v) ∈ b ∧ 0 < v := by
  rcases List.mem_map.mp h with ⟨x, hx, rfl⟩
  rcases List.mem_filter.mp hx with ⟨hx1, hx2⟩
  rcases List.mem_filter.mp hx1 with ⟨hx3, _⟩
  exact ⟨x.2, by simpa using hx3, by simpa using hx2⟩

theorem mem_debtorsOf_keys (b : List (String × ℚ)) (k : String)
    (h : k ∈ (debtorsOf b).map Prod.fst) : ∃ v, (k, v) ∈ b ∧ v < 0 := by
  rcases List.mem_map.mp h with ⟨x, hx, rfl⟩
  rcases List.mem_map.mp hx with ⟨y, hy, rfl⟩
  rcases List.mem_filter.mp hy with ⟨hy1, hy2⟩
  rcases List.mem_filter.mp hy1 with ⟨hy3, _⟩
  exact ⟨y.2, by simpa using hy3, by simpa using hy2⟩

theorem value_eq_of_nodup_keys (b : List (String × ℚ))
    (h : (b.map Prod.fst).Nodup) (k : String) (v1 v2 : ℚ)
    (h1 : (k, v1) ∈ b) (h2 : (k, v2) ∈ b) : v1 = v2 := by
  induction b with
  | nil => simp at h1
  | cons e b ih =>
    simp only [List.map_cons, List.nodup_cons] at h
    rcases List.mem_cons.mp h1 with he1 | he1 <;> rcases List.mem_cons.mp h2 with he2 | he2
    · rw [← he1] at he2; exact (Prod.mk.injEq _ _ _ _).mp he2.symm |>.2
    · exact absurd (List.mem_map.mpr ⟨(k, v2), he2, by rw [← he1]⟩) h.1
    · exact absurd (List.mem_map.mpr ⟨(k, v1), he1, by rw [← he2]⟩) h.1
    · exact ih h.2 he1 he2

theorem creditor_debtor_disjoint (b : List (String × ℚ))
    (h : (b.map Prod.fst).Nodup) (k : String)
    (hc : k ∈ (creditorsOf b).map Prod.fst) (hd : k ∈ (debtorsOf b).map Prod.fst) :
    False := by
  rcases mem_creditorsOf_keys b k hc with ⟨v1, hv1, hv1pos⟩
  rcases mem_debtorsOf_keys b k hd with ⟨v2, hv2, hv2neg⟩
  have := value_eq_of_nodup_keys b h k v1 v2 hv1 hv2
  subst this
  exact absurd hv1pos (not_lt.mpr hv2neg.le)

theorem simplify_debts_mem (b : List (String × ℚ)) (t : Txn)
    (ht : t ∈ simplify_debts b) :
    t.to_user ∈ (creditorsOf b).map Prod.fst ∧
      t.from_user ∈ (debtorsOf b).map Prod.fst ∧ eps < t.amount := by
  obtain ⟨h1, h2, h3⟩ := greedyMatch_mem (sortDesc (creditorsOf b)) t (sortDesc (debtorsOf b)) ht
  exact ⟨(mem_sortDesc_keys _ _).mp h1, (mem_sortDesc_keys _ _).mp h2, h3⟩

theorem mem_pairsOf (txns : List Txn) (p : String × String) :
    p ∈ pairsOf txns ↔ ∃ t ∈ txns, p = (t.from_user, t.to_user) := by
  simp only [pairsOf, List.mem_map]
  constructor
  · rintro ⟨t, ht, rfl⟩; exact ⟨t, ht, rfl⟩
  · rintro ⟨t, ht, rfl⟩; exact ⟨t, ht, rfl⟩

theorem simplify_debts_chainFree (b : List (String × ℚ))
    (h : (b.map Prod.fst).Nodup) : ChainFree (simplify_debts b) := by
  intro p hp q hq r hr hq1 hr2 hqr
  exfalso
  rcases (mem_pairsOf _ _).mp hq with ⟨tq, htq, rfl⟩
  rcases (mem_pairsOf _ _).mp hr with ⟨tr, htr, rfl⟩
  obtain ⟨hcq, _, _⟩ := simplify_debts_mem b tq htq
  obtain ⟨_, hdr, _⟩ := simplify_debts_mem b tr htr
  simp only [] at hqr
  rw [hqr] at hcq
  exact creditor_debtor_disjoint b h tr.from_user hcq hdr

theorem filter_filter_length_le (l : List (String × ℚ)) (p q : String × ℚ → Bool)
    (hpq : ∀ x, ¬(p x = true ∧ q x = true)) :
    (l.filter p).length + (l.filter q).length ≤ l.length := by
  induction l with
  | nil => simp
  | cons e l ih =>
    simp only [List.filter_cons]
    by_cases hp : p e = true <;> by_cases hq : q e = true
    · exact absurd ⟨hp, hq⟩ (hpq e)
    · simp only [if_pos hp, if_neg hq, List.length_cons]; omega
    · simp only [if_neg hp, if_pos hq, List.length_cons]; omega
    · simp only [if_neg hp, if_neg hq, List.length_cons]; omega

theorem creditors_debtors_length (b : List (String × ℚ)) :
    (creditorsOf b).length + (debtorsOf b).length ≤ (netBalancesOf b).length := by
  have := filter_filter_length_le (netBalancesOf b)
    (fun x => decide (0 < x.2)) (fun x => decide (x.2 < 0))
    (by
      intro x ⟨h1, h2⟩
      simp only [decide_eq_true_eq] at h1 h2
      exact absurd h1 (not_lt.mpr h2.le))
  simpa [creditorsOf, debtorsOf] using this

theorem simplify_debts_length (b : List (String × ℚ)) :
    (simplify_debts b).length ≤ (netBalancesOf b).length - 1 := by
  have h1 := greedyMatch_length (sortDesc (creditorsOf b)) (sortDesc (debtorsOf b))
  have h2 := creditors_debtors_length b
  rw [sortDesc_length, sortDesc_length] at h1
  have h0 : simplify_debts b =
      greedyMatch (sortDesc (creditorsOf b)) (sortDesc (debtorsOf b)) := rfl
  rw [h0]
  omega

/-! ### Lemmas about the flow graph of `_merge_transactions` -/

theorem mem_addToInner_keys (t : String) (a : ℚ) (inner : List (String × ℚ)) (x : String) :
    x ∈ (addToInner t a inner).map Prod.fst ↔ x = t ∨ x ∈ inner.map Prod.fst := by
  induction inner with
  | nil => simp [addToInner]
  | cons e rest ih =>
    obtain ⟨t0, a0⟩ := e
    simp only [addToInner]
    by_cases h : t0 = t
    · rw [if_pos h]
      subst h
      simp only [List.map_cons, List.mem_cons]
      tauto
    · rw [if_neg h]
      simp only [List.map_cons, List.mem_cons, ih]
      tauto

theorem addToInner_keys_nodup (t : String) (a : ℚ) (inner : List (String × ℚ))
    (h : (inner.map Prod.fst).Nodup) : ((addToInner t a inner).map Prod.fst).Nodup := by
  induction inner with
  | nil => simp [addToInner]
  | cons e rest ih =>
    obtain ⟨t0, a0⟩ := e
    simp only [List.map_cons, List.nodup_cons] at h
    simp only [addToInner]
    by_cases h' : t0 = t
    · rw [if_pos h']
      simp only [List.map_cons, List.nodup_cons]
      exact ⟨h.1, h.2⟩
    · rw [if_neg h']
      simp only [List.map_cons, List.nodup_cons]
      refine ⟨fun hc => ?_, ih h.2⟩
      rcases (mem_addToInner_keys t a rest t0).mp hc with rfl | hc'
      · exact h' rfl
      · exact h.1 hc'

theorem addToInner_length_le (t : String) (a : ℚ) (inner : List (String × ℚ)) :
    (addToInner t a inner).length ≤ inner.length + 1 := by
  induction inner with
  | nil => simp [addToInner]
  | cons e rest ih =>
    obtain ⟨t0, a0⟩ := e
    simp only [addToInner]
    by_cases h : t0 = t
    · rw [if_pos h]
      simp
    · rw [if_neg h]
      simp only [List.length_cons]
      omega

theorem directOf_cons (f : String) (inner : List (String × ℚ))
    (rest : List (String × List (String × ℚ))) :
    directOf ((f, inner) :: rest) =
      inner.map (fun ti => ((f, ti.1), ti.2)) ++ directOf rest := by
  simp [directOf]

theorem mem_pairHead_keys (f : String) (inner : List (String × ℚ)) (p : String × String) :
    p ∈ (inner.map (fun ti => ((f, ti.1), ti.2))).map Prod.fst ↔
      p.1 = f ∧ p.2 ∈ inner.map Prod.fst := by
  constructor
  · intro hp
    rcases List.mem_map.mp hp with ⟨q, hq, rfl⟩
    rcases List.mem_map.mp hq with ⟨ti, hti, rfl⟩
    exact ⟨rfl, List.mem_map.mpr ⟨ti, hti, rfl⟩⟩
  · rintro ⟨h1, h2⟩
    rcases List.mem_map.mp h2 with ⟨ti, hti, hti2⟩
    refine List.mem_map.mpr ⟨((f, ti.1), ti.2), List.mem_map.mpr ⟨ti, hti, rfl⟩, ?_⟩
    obtain ⟨p1, p2⟩ := p
    simp only [] at h1 hti2 ⊢
    rw [h1, hti2]

theorem mem_addToGraph_keys (f t : String) (a : ℚ)
    (g : List (String × List (String × ℚ))) (x : String) :
    x ∈ (addToGraph f t a g).map Prod.fst ↔ x = f ∨ x ∈ g.map Prod.fst := by
  induction g with
  | nil => simp [addToGraph]
  | cons e rest ih =>
    obtain ⟨f0, inner⟩ := e
    simp only [addToGraph]
    by_cases h : f0 = f
    · rw [if_pos h]
      subst h
      simp only [List.map_cons, List.mem_cons]
      tauto
    · rw [if_neg h]
      simp only [List.map_cons, List.mem_cons, ih]
      tauto

theorem addToGraph_wf (f t : String) (a : ℚ)
    (g : List (String × List (String × ℚ))) (h : GraphWF g) :
    GraphWF (addToGraph f t a g) := by
  obtain ⟨h1, h2⟩ := h
  induction g with
  | nil =>
    refine ⟨by simp [addToGraph], ?_⟩
    intro fi hfi
    rcases List.mem_singleton.mp (by simpa [addToGraph] using hfi) with rfl
    simp
  | cons e rest ih =>
    obtain ⟨f0, inner⟩ := e
    simp only [List.map_cons, List.nodup_cons] at h1
    simp only [addToGraph]
    by_cases h' : f0 = f
    · rw [if_pos h']
      refine ⟨by simpa using And.intro h1.1 h1.2, ?_⟩
      intro fi hfi
      rcases List.mem_cons.mp hfi with rfl | hfi'
      · exact addToInner_keys_nodup t a inner (h2 (f0, inner) (List.mem_cons_self _ _))
      · exact h2 fi (List.mem_cons_of_mem _ hfi')
    · rw [if_neg h']
      have ihrest := ih h1.2 (fun fi hfi => h2 fi (List.mem_cons_of_mem _ hfi))
      refine ⟨?_, ?_⟩
      · simp only [List.map_cons, List.nodup_cons]
        refine ⟨fun hc => ?_, ihrest.1⟩
        rcases (mem_addToGraph_keys f t a rest f0).mp hc with rfl | hc'
        · exact h' rfl
        · exact h1.1 hc'
      · intro fi hfi
        rcases List.mem_cons.mp hfi with rfl | hfi'
        · exact h2 _ (List.mem_cons_self _ _)
        · exact ihrest.2 fi hfi'

theorem mem_direct_addToGraph_keys (f t : String) (a : ℚ)
    (g : List (String × List (String × ℚ))) (p : String × String) :
    p ∈ (directOf (addToGraph f t a g)).map Prod.fst ↔
      p = (f, t) ∨ p ∈ (directOf g).map Prod.fst := by
  induction g with
  | nil => simp [addToGraph, directOf]
  | cons e rest ih =>
    obtain ⟨f0, inner⟩ := e
    simp only [addToGraph]
    by_cases h : f0 = f
    · rw [if_pos h]
      subst h
      rw [directOf_cons, directOf_cons]
      simp only [List.map_append, List.mem_append, mem_pairHead_keys, mem_addToInner_keys]
      constructor
      · rintro (⟨hp1, rfl | hp2⟩ | hp3)
        · exact Or.inl (by obtain ⟨p1, p2⟩ := p; simp only [] at hp1 ⊢; rw [hp1])
        · exact Or.inr (Or.inl ⟨hp1, hp2⟩)
        · exact Or.inr (Or.inr hp3)
      · rintro (rfl | ⟨hp1, hp2⟩ | hp3)
        · exact Or.inl ⟨rfl, Or.inl rfl⟩
        · exact Or.inl ⟨hp1, Or.inr hp2⟩
        · exact Or.inr hp3
    · rw [if_neg h]
      rw [directOf_cons, directOf_cons]
      simp only [List.map_append, List.mem_append, mem_pairHead_keys, ih]
      tauto

theorem directOf_addToGraph_length (f t : String) (a : ℚ)
    (g : List (String × List (String × ℚ))) :
    (directOf (addToGraph f t a g)).length ≤ (directOf g).length + 1 := by
  induction g with
  | nil => simp [addToGraph, directOf]
  | cons e rest ih =>
    obtain ⟨f0, inner⟩ := e
    simp only [addToGraph]
    by_cases h : f0 = f
    · rw [if_pos h]
      rw [directOf_cons, directOf_cons]
      simp only [List.length_append, List.length_map]
      have := addToInner_length_le t a inner
      omega
    · rw [if_neg h]
      rw [directOf_cons, directOf_cons]
      simp only [List.length_append, List.length_map]
      omega

theorem buildGraph_wf (transactions : List Txn) : GraphWF (buildGraph transactions) := by
  suffices h : ∀ g, GraphWF g →
      GraphWF (transactions.foldl
        (fun g txn => addToGraph txn.from_user txn.to_user txn.amount g) g) by
    exact h [] ⟨List.nodup_nil, by simp⟩
  induction transactions with
  | nil => intro g hg; exact hg
  | cons txn rest ih =>
    intro g hg
    exact ih _ (addToGraph_wf _ _ _ g hg)

theorem mem_buildGraph_direct_keys (transactions : List Txn) (p : String × String) :
    p ∈ (directOf (buildGraph transactions)).map Prod.fst ↔ p ∈ pairsOf transactions := by
  suffices h : ∀ g,
      (p ∈ (directOf (transactions.foldl
          (fun g txn => addToGraph txn.from_user txn.to_user txn.amount g) g)).map Prod.fst ↔
        p ∈ (directOf g).map Prod.fst ∨ p ∈ pairsOf transactions) by
    have := h []
    simpa [directOf, pairsOf] using this
  induction transactions with
  | nil => intro g; simp [pairsOf]
  | cons txn rest ih =>
    intro g
    simp only [List.foldl_cons, ih, mem_direct_addToGraph_keys, pairsOf, List.map_cons,
      List.mem_cons]
    tauto

theorem buildGraph_direct_length (transactions : List Txn) :
    (directOf (buildGraph transactions)).length ≤ transactions.length := by
  suffices h : ∀ g,
      (directOf (transactions.foldl
          (fun g txn => addToGraph txn.from_user txn.to_user txn.amount g) g)).length ≤
        (directOf g).length + transactions.length by
    simpa [directOf] using h []
  induction transactions with
  | nil => intro g; simp
  | cons txn rest ih =>
    intro g
    simp only [List.foldl_cons, List.length_cons]
    have h1 := ih (addToGraph txn.from_user txn.to_user txn.amount g)
    have h2 := directOf_addToGraph_length txn.from_user txn.to_user txn.amount g
    omega

theorem mem_directOf_keys_outer (g : List (String × List (String × ℚ)))
    (p : String × String) (hp : p ∈ (directOf g).map Prod.fst) : p.1 ∈ g.map Prod.fst := by
  induction g with
  | nil => simp [directOf] at hp
  | cons e rest ih =>
    obtain ⟨f0, inner⟩ := e
    rw [directOf_cons] at hp
    simp only [List.map_append, List.mem_append, mem_pairHead_keys] at hp
    rcases hp with ⟨h1, _⟩ | h2
    · simp [h1]
    · exact List.mem_cons_of_mem _ (ih h2)

theorem directOf_keys_nodup (g : List (String × List (String × ℚ))) (h : GraphWF g) :
    ((directOf g).map Prod.fst).Nodup := by
  obtain ⟨h1, h2⟩ := h
  induction g with
  | nil => simp [directOf]
  | cons e rest ih =>
    obtain ⟨f0, inner⟩ := e
    simp only [List.map_cons, List.nodup_cons] at h1
    rw [directOf_cons]
    simp only [List.map_append]
    apply List.Nodup.append
    · have hinner := h2 (f0, inner) (List.mem_cons_self _ _)
      have heq : (inner.map (fun ti => ((f0, ti.1), ti.2))).map Prod.fst =
          (inner.map Prod.fst).map (fun x => (f0, x)) := by
        rw [List.map_map, List.map_map]
        rfl
      rw [heq]
      exact hinner.map (fun x y hxy => by simpa using hxy)
    · exact ih h1.2 (fun fi hfi => h2 fi (List.mem_cons_of_mem _ hfi))
    · intro p hp1 hp2
      have := mem_directOf_keys_outer rest p hp2
      have hp1' : p.1 = f0 := ((mem_pairHead_keys f0 inner p).mp hp1).1
      rw [hp1'] at this
      exact h1.1 this

/-! ### Lemmas about `lookupPair` -/

theorem lookupPair_isSome_iff (k : String × String) (d : List ((String × String) × ℚ)) :
    (lookupPair k d).isSome ↔ k ∈ d.map Prod.fst := by
  induction d with
  | nil => simp [lookupPair]
  | cons e rest ih =>
    obtain ⟨ek, ea⟩ := e
    simp only [lookupPair, List.find?_cons] at ih ⊢
    by_cases h : ek = k
    · subst h
      simp
    · have hd : (decide ((ek, ea).1 = k)) = false := by simp [h]
      rw [hd]
      simp only [List.map_cons, List.mem_cons]
      rw [ih]
      constructor
      · exact Or.inr
      · rintro (rfl | hk)
        · exact absurd rfl h
        · exact hk

theorem lookupPair_eq_some_mem (k : String × String) (d : List ((String × String) × ℚ))
    (a : ℚ) (h : lookupPair k d = some a) : (k, a) ∈ d := by
  induction d with
  | nil => simp [lookupPair] at h
  | cons e rest ih =>
    obtain ⟨ek, ea⟩ := e
    by_cases h' : ek = k
    · subst h'
      have heq : lookupPair ek ((ek, ea) :: rest) = some ea := by
        simp [lookupPair, List.find?_cons]
      rw [heq] at h
      obtain rfl := Option.some.inj h
      exact List.mem_cons_self _ _
    · have heq : lookupPair k ((ek, ea) :: rest) = lookupPair k rest := by
        simp only [lookupPair, List.find?_cons]
        have hd : (decide ((ek, ea).1 = k)) = false := by simp [h']
        rw [hd]
      rw [heq] at h
      exact List.mem_cons_of_mem _ (ih h)

theorem lookupPair_of_nodup (d : List ((String × String) × ℚ))
    (hnd : (d.map Prod.fst).Nodup) (k : String × String) (a : ℚ) (h : (k, a) ∈ d) :
    lookupPair k d = some a := by
  induction d with
  | nil => simp at h
  | cons e rest ih =>
    obtain ⟨ek, ea⟩ := e
    simp only [List.map_cons, List.nodup_cons] at hnd
    rcases List.mem_cons.mp h with he | he
    · obtain ⟨rfl, rfl⟩ := Prod.mk.injEq .. |>.mp he
      simp [lookupPair, List.find?_cons]
    · have hne : ek ≠ k := by
        rintro rfl
        exact hnd.1 (List.mem_map.mpr ⟨(ek, a), he, rfl⟩)
      simp only [lookupPair, List.find?_cons]
      have hd : (decide ((ek, ea).1 = k)) = false := by simp [hne]
      rw [hd]
      exact ih hnd.2 he

/-! ### The merge-free run of the second pass -/

theorem scanIntermediates_none (f t : String) (amount : ℚ)
    (direct : List ((String × String) × ℚ)) (keys : List String)
    (h : ∀ b ∈ keys, b = f ∨ b = t ∨ lookupPair (f, b) direct = none ∨
      lookupPair (b, t) direct = none) :
    scanIntermediates f t amount direct keys = none := by
  induction keys with
  | nil => rfl
  | cons b bs ih =>
    have hrec := ih (fun b' hb' => h b' (List.mem_cons_of_mem _ hb'))
    simp only [scanIntermediates]
    by_cases hbf : b = f ∨ b = t
    · rw [if_pos hbf]
      exact hrec
    · rw [if_neg hbf]
      have hb := h b (List.mem_cons_self _ _)
      rcases hb with rfl | rfl | hn | hn
      · exact absurd (Or.inl rfl) hbf
      · exact absurd (Or.inr rfl) hbf
      · rw [hn]
        exact hrec
      · rcases hm : lookupPair (f, b) direct with _ | a2b
        · exact hrec
        · rw [hn]
          exact hrec

theorem emitTxns_nil (d : List ((String × String) × ℚ)) : emitTxns d [] = [] := rfl

theorem emitKeys_nil (d : List ((String × String) × ℚ)) : emitKeys d [] = [] := rfl

theorem emitTxns_cons_pos (d : List ((String × String) × ℚ)) (k : String × String)
    (ks : List (String × String)) (a : ℚ) (ha : lookupPair k d = some a) (h : eps < a) :
    emitTxns d (k :: ks) = ⟨k.1, k.2, a⟩ :: emitTxns d ks := by
  simp [emitTxns, List.filterMap_cons, ha, if_pos h]

theorem emitTxns_cons_neg (d : List ((String × String) × ℚ)) (k : String × String)
    (ks : List (String × String)) (a : ℚ) (ha : lookupPair k d = some a) (h : ¬ eps < a) :
    emitTxns d (k :: ks) = emitTxns d ks := by
  simp [emitTxns, List.filterMap_cons, ha, if_neg h]

theorem emitKeys_cons_pos (d : List ((String × String) × ℚ)) (k : String × String)
    (ks : List (String × String)) (a : ℚ) (ha : lookupPair k d = some a) (h : eps < a) :
    emitKeys d (k :: ks) = k :: emitKeys d ks := by
  simp [emitKeys, List.filter_cons, ha, h]

theorem emitKeys_cons_neg (d : List ((String × String) × ℚ)) (k : String × String)
    (ks : List (String × String)) (a : ℚ) (ha : lookupPair k d = some a) (h : ¬ eps < a) :
    emitKeys d (k :: ks) = emitKeys d ks := by
  simp [emitKeys, List.filter_cons, ha, h]

theorem mergePass_passthrough (keys : List String) (d : List ((String × String) × ℚ))
    (ks : List (String × String)) :
    ∀ st : MergeState, st.direct = d →
      (∀ k ∈ ks, k ∈ d.map Prod.fst) →
      (∀ k a, k ∈ ks → lookupPair k d = some a →
        scanIntermediates k.1 k.2 a d keys = none) →
      ks.Nodup → (∀ k ∈ ks, k ∉ st.processed) →
      mergePass keys ks st =
        .ok ⟨d, st.merged ++ emitTxns d ks, st.processed ++ emitKeys d ks⟩ := by
  induction ks with
  | nil =>
    intro st hst _ _ _ _
    obtain ⟨d0, m0, p0⟩ := st
    simp only [] at hst
    subst hst
    simp [mergePass, emitTxns_nil, emitKeys_nil]
  | cons k ks ih =>
    intro st hst hmem hscan hnd hproc
    have hpk : k ∉ st.processed := hproc k (List.mem_cons_self _ _)
    obtain ⟨a, ha⟩ : ∃ a, lookupPair k d = some a :=
      Option.isSome_iff_exists.mp
        ((lookupPair_isSome_iff k d).mpr (hmem k (List.mem_cons_self _ _)))
    have hsc := hscan k a (List.mem_cons_self _ _) ha
    have hndk : k ∉ ks := (List.nodup_cons.mp hnd).1
    have hnd' : ks.Nodup := (List.nodup_cons.mp hnd).2
    have hmem' : ∀ k' ∈ ks, k' ∈ d.map Prod.fst :=
      fun k' hk' => hmem k' (List.mem_cons_of_mem _ hk')
    have hscan' : ∀ k' a', k' ∈ ks → lookupPair k' d = some a' →
        scanIntermediates k'.1 k'.2 a' d keys = none :=
      fun k' a' hk' => hscan k' a' (List.mem_cons_of_mem _ hk')
    simp only [mergePass]
    rw [if_neg hpk, hst, ha]
    dsimp only
    rw [hsc]
    dsimp only
    by_cases hea : eps < a
    · rw [if_pos hea]
      have hih := ih ⟨d, st.merged ++ [⟨k.1, k.2, a⟩], st.processed ++ [k]⟩ rfl hmem' hscan'
        hnd' (fun k' hk' => by
          simp only [List.mem_append, List.mem_singleton]
          rintro (hin | rfl)
          · exact hproc k' (List.mem_cons_of_mem _ hk') hin
          · exact hndk hk')
      rw [hih, emitTxns_cons_pos d k ks a ha hea, emitKeys_cons_pos d k ks a ha hea]
      simp
    · rw [if_neg hea]
      have hih := ih st hst hmem' hscan' hnd'
        (fun k' hk' => hproc k' (List.mem_cons_of_mem _ hk'))
      rw [hih, emitTxns_cons_neg d k ks a ha hea, emitKeys_cons_neg d k ks a ha hea]

theorem lookupPair_cons_ne (e : (String × String) × ℚ) (rest : List ((String × String) × ℚ))
    (k : String × String) (h : e.1 ≠ k) : lookupPair k (e :: rest) = lookupPair k rest := by
  simp only [lookupPair, List.find?_cons]
  have hd : (decide (e.1 = k)) = false := by simp [h]
  rw [hd]

theorem emitTxns_self (d : List ((String × String) × ℚ))
    (hnd : (d.map Prod.fst).Nodup) : emitTxns d (d.map Prod.fst) = emitOf d := by
  induction d with
  | nil => rfl
  | cons e rest ih =>
    simp only [List.map_cons, List.nodup_cons] at hnd
    have hhead : lookupPair e.1 (e :: rest) = some e.2 := by
      simp [lookupPair, List.find?_cons]
    have htail : emitTxns (e :: rest) (rest.map Prod.fst) = emitTxns rest (rest.map Prod.fst) := by
      apply List.filterMap_congr
      intro k hk
      rw [lookupPair_cons_ne e rest k (fun he => hnd.1 (he ▸ hk))]
    by_cases hea : eps < e.2
    · rw [List.map_cons, emitTxns_cons_pos _ _ _ _ hhead hea, htail, ih hnd.2]
      simp only [emitOf, List.filter_cons]
      rw [show (decide (eps < e.2)) = true by simp [hea]]
      simp
    · rw [List.map_cons, emitTxns_cons_neg _ _ _ _ hhead hea, htail, ih hnd.2]
      simp only [emitOf, List.filter_cons]
      rw [show (decide (eps < e.2)) = false by simp [hea]]
      simp

theorem emitKeys_self (d : List ((String × String) × ℚ))
    (hnd : (d.map Prod.fst).Nodup) :
    emitKeys d (d.map Prod.fst) =
      (d.filter (fun e => decide (eps < e.2))).map Prod.fst := by
  induction d with
  | nil => rfl
  | cons e rest ih =>
    simp only [List.map_cons, List.nodup_cons] at hnd
    have hhead : lookupPair e.1 (e :: rest) = some e.2 := by
      simp [lookupPair, List.find?_cons]
    have htail : emitKeys (e :: rest) (rest.map Prod.fst) = emitKeys rest (rest.map Prod.fst) := by
      apply List.filter_congr
      intro k hk
      rw [lookupPair_cons_ne e rest k (fun he => hnd.1 (he ▸ hk))]
    by_cases hea : eps < e.2
    · rw [List.map_cons, emitKeys_cons_pos _ _ _ _ hhead hea, htail, ih hnd.2]
      simp only [List.filter_cons]
      rw [show (decide (eps < e.2)) = true by simp [hea]]
      simp
    · rw [List.map_cons, emitKeys_cons_neg _ _ _ _ hhead hea, htail, ih hnd.2]
      simp only [List.filter_cons]
      rw [show (decide (eps < e.2)) = false by simp [hea]]
      simp

theorem thirdPass_empty (d : List ((String × String) × ℚ)) :
    d.filter (fun e => decide (eps < e.2) &&
      decide (e.1 ∉ (d.filter (fun e => decide (eps < e.2))).map Prod.fst)) = [] := by
  rw [List.filter_eq_nil_iff]
  intro e he
  by_cases hea : eps < e.2
  · have : e.1 ∈ (d.filter (fun e => decide (eps < e.2))).map Prod.fst :=
      List.mem_map.mpr ⟨e, List.mem_filter.mpr ⟨he, by simp [hea]⟩, rfl⟩
    simp [hea, this]
  · simp [hea]

theorem merge_ok_of_chainFree (transactions : List Txn) (h : ChainFree transactions) :
    _merge_transactions transactions =
      .ok (emitOf (directOf (buildGraph transactions))) := by
  rcases htx : transactions with _ | ⟨t0, ts⟩
  · simp [_merge_transactions, buildGraph, directOf, emitOf]
  · rw [← htx]
    have hne : ¬ transactions.isEmpty = true := by rw [htx]; simp
    have hwf := buildGraph_wf transactions
    have hnd := directOf_keys_nodup (buildGraph transactions) hwf
    have hscan : ∀ (k : String × String) (a : ℚ),
        k ∈ (directOf (buildGraph transactions)).map Prod.fst →
        lookupPair k (directOf (buildGraph transactions)) = some a →
        scanIntermediates k.1 k.2 a (directOf (buildGraph transactions))
          ((buildGraph transactions).map Prod.fst) = none := by
      intro k a hk _
      apply scanIntermediates_none
      intro b _
      by_cases hbf : b = k.1
      · exact Or.inl hbf
      by_cases hbt : b = k.2
      · exact Or.inr (Or.inl hbt)
      rcases h1 : lookupPair (k.1, b) (directOf (buildGraph transactions)) with _ | a2b
      · exact Or.inr (Or.inr (Or.inl rfl))
      rcases h2 : lookupPair (b, k.2) (directOf (buildGraph transactions)) with _ | b2c
      · exact Or.inr (Or.inr (Or.inr rfl))
      exfalso
      have hp : k ∈ pairsOf transactions := (mem_buildGraph_direct_keys transactions k).mp hk
      have hq : (k.1, b) ∈ pairsOf transactions := by
        apply (mem_buildGraph_direct_keys transactions _).mp
        apply (lookupPair_isSome_iff _ _).mp
        rw [h1]; rfl
      have hr : (b, k.2) ∈ pairsOf transactions := by
        apply (mem_buildGraph_direct_keys transactions _).mp
        apply (lookupPair_isSome_iff _ _).mp
        rw [h2]; rfl
      have := h k hp (k.1, b) hq (b, k.2) hr rfl rfl rfl
      simp only [] at this
      rcases this with hb | hb
      · exact hbf hb
      · exact hbt hb
    have hrun := mergePass_passthrough ((buildGraph transactions).map Prod.fst)
      (directOf (buildGraph transactions))
      ((directOf (buildGraph transactions)).map Prod.fst)
      ⟨directOf (buildGraph transactions), [], []⟩ rfl (fun k hk => hk) hscan hnd
      (fun k _ hk => (List.not_mem_nil k) hk)
    simp only [_merge_transactions]
    rw [if_neg hne, hrun]
    dsimp only
    simp only [List.nil_append, emitTxns_self _ hnd, emitKeys_self _ hnd]
    rw [thirdPass_empty]
    simp

/-! ### Rebuilding a graph from its flattened transaction list -/

theorem addToInner_notmem (t : String) (a : ℚ) (done : List (String × ℚ))
    (h : t ∉ done.map Prod.fst) : addToInner t a done = done ++ [(t, a)] := by
  induction done with
  | nil => rfl
  | cons e rest ih =>
    obtain ⟨t0, a0⟩ := e
    simp only [List.map_cons, List.mem_cons] at h
    push_neg at h
    simp only [addToInner]
    rw [if_neg (fun he => h.1 he.symm)]
    rw [ih h.2]
    simp

theorem addToGraph_notmem (f t : String) (a : ℚ)
    (acc : List (String × List (String × ℚ))) (h : f ∉ acc.map Prod.fst) :
    addToGraph f t a acc = acc ++ [(f, [(t, a)])] := by
  induction acc with
  | nil => rfl
  | cons e rest ih =>
    obtain ⟨f0, inner⟩ := e
    simp only [List.map_cons, List.mem_cons] at h
    push_neg at h
    simp only [addToGraph]
    rw [if_neg (fun he => h.1 he.symm)]
    rw [ih h.2]
    simp

theorem addToGraph_last (f t : String) (a : ℚ)
    (acc : List (String × List (String × ℚ))) (done : List (String × ℚ))
    (h : f ∉ acc.map Prod.fst) :
    addToGraph f t a (acc ++ [(f, done)]) = acc ++ [(f, addToInner t a done)] := by
  induction acc with
  | nil => simp [addToGraph]
  | cons e rest ih =>
    obtain ⟨f0, inner⟩ := e
    simp only [List.map_cons, List.mem_cons] at h
    push_neg at h
    simp only [List.cons_append, addToGraph, List.append_eq]
    rw [if_neg (fun he => h.1 he.symm)]
    rw [ih h.2]

theorem txnsOfGraph_cons (f : String) (inner : List (String × ℚ))
    (rest : List (String × List (String × ℚ))) :
    txnsOfGraph ((f, inner) :: rest) =
      inner.map (fun ti => ⟨f, ti.1, ti.2⟩) ++ txnsOfGraph rest := by
  simp [txnsOfGraph]

theorem foldl_addToGraph_inner (f : String) (inner : List (String × ℚ)) :
    ∀ (acc : List (String × List (String × ℚ))) (done : List (String × ℚ)),
      f ∉ acc.map Prod.fst →
      (∀ ti ∈ inner, ti.1 ∉ done.map Prod.fst) →
      (inner.map Prod.fst).Nodup →
      (inner.map (fun ti => (⟨f, ti.1, ti.2⟩ : Txn))).foldl
          (fun g txn => addToGraph txn.from_user txn.to_user txn.amount g)
          (acc ++ [(f, done)]) =
        acc ++ [(f, done ++ inner)] := by
  induction inner with
  | nil => intro acc done _ _ _; simp
  | cons ti more ih =>
    intro acc done hf hdone hnd
    simp only [List.map_cons, List.foldl_cons]
    have hstep : addToGraph f ti.1 ti.2 (acc ++ [(f, done)]) =
        acc ++ [(f, done ++ [ti])] := by
      rw [addToGraph_last f ti.1 ti.2 acc done hf]
      rw [addToInner_notmem ti.1 ti.2 done (hdone ti (List.mem_cons_self _ _))]
    rw [hstep]
    simp only [List.map_cons, List.nodup_cons] at hnd
    have hdone' : ∀ ti' ∈ more, ti'.1 ∉ (done ++ [ti]).map Prod.fst := by
      intro ti' hti'
      simp only [List.map_append, List.mem_append, List.map_cons, List.map_nil,
        List.mem_singleton]
      rintro (hin | heq)
      · exact hdone ti' (List.mem_cons_of_mem _ hti') hin
      · exact hnd.1 (heq ▸ List.mem_map.mpr ⟨ti', hti', rfl⟩)
    have := ih acc (done ++ [ti]) hf hdone' hnd.2
    rw [this]
    simp

theorem foldl_addToGraph_graph (g : List (String × List (String × ℚ))) :
    ∀ acc : List (String × List (String × ℚ)),
      (∀ fi ∈ g, fi.1 ∉ acc.map Prod.fst) →
      (g.map Prod.fst).Nodup →
      (∀ fi ∈ g, (fi.2.map Prod.fst).Nodup) →
      (∀ fi ∈ g, fi.2 ≠ []) →
      (txnsOfGraph g).foldl
          (fun g txn => addToGraph txn.from_user txn.to_user txn.amount g) acc =
        acc ++ g := by
  induction g with
  | nil => intro acc _ _ _ _; simp [txnsOfGraph]
  | cons fi rest ih =>
    intro acc hdisj hnd hinner hne
    obtain ⟨f, inner⟩ := fi
    rw [txnsOfGraph_cons, List.foldl_append]
    simp only [List.map_cons, List.nodup_cons] at hnd
    have hfacc : f ∉ acc.map Prod.fst := hdisj (f, inner) (List.mem_cons_self _ _)
    have hinner0 : (inner.map Prod.fst).Nodup := hinner (f, inner) (List.mem_cons_self _ _)
    rcases inner with _ | ⟨ti, more⟩
    · exact absurd rfl (hne (f, []) (List.mem_cons_self _ _))
    have hstep1 : addToGraph f ti.1 ti.2 acc = acc ++ [(f, [(ti.1, ti.2)])] :=
      addToGraph_notmem f ti.1 ti.2 acc hfacc
    simp only [List.map_cons, List.foldl_cons]
    rw [hstep1]
    simp only [List.map_cons, List.nodup_cons] at hinner0
    have hrun := foldl_addToGraph_inner f more acc [(ti.1, ti.2)] hfacc
      (by
        intro ti' hti'
        simp only [List.map_cons, List.map_nil, List.mem_singleton]
        intro heq
        exact hinner0.1 (heq ▸ List.mem_map.mpr ⟨ti', hti', rfl⟩))
      hinner0.2
    rw [hrun]
    have hrest := ih (acc ++ [(f, ti :: more)])
      (by
        intro fi' hfi'
        simp only [List.map_append, List.mem_append, List.map_cons, List.map_nil,
          List.mem_singleton]
        rintro (hin | heq)
        · exact hdisj fi' (List.mem_cons_of_mem _ hfi') hin
        · exact hnd.1 (heq ▸ List.mem_map.mpr ⟨fi', hfi', rfl⟩))
      hnd.2
      (fun fi' hfi' => hinner fi' (List.mem_cons_of_mem _ hfi'))
      (fun fi' hfi' => hne fi' (List.mem_cons_of_mem _ hfi'))
    simp only [List.cons_append, List.nil_append] at hrest ⊢
    rw [hrest]
    simp

theorem buildGraph_txnsOfGraph (g : List (String × List (String × ℚ)))
    (hwf : GraphWF g) (hne : ∀ fi ∈ g, fi.2 ≠ []) :
    buildGraph (txnsOfGraph g) = g := by
  have := foldl_addToGraph_graph g [] (by simp) hwf.1 hwf.2 hne
  simpa [buildGraph] using this

theorem directOf_filterGraph (g : List (String × List (String × ℚ))) :
    directOf (filterGraph g) = (directOf g).filter (fun e => decide (eps < e.2)) := by
  induction g with
  | nil => rfl
  | cons fi rest ih =>
    obtain ⟨f, inner⟩ := fi
    rw [directOf_cons, List.filter_append, ← ih]
    have hcomm : (inner.map (fun ti => ((f, ti.1), ti.2))).filter
        (fun e => decide (eps < e.2)) =
        (inner.filter (fun ti => decide (eps < ti.2))).map (fun ti => ((f, ti.1), ti.2)) := by
      rw [List.filter_map]
      rfl
    rw [hcomm]
    rcases hemp : (inner.filter (fun ti => decide (eps < ti.2))).isEmpty with _ | _
    · have hfg : filterGraph ((f, inner) :: rest) =
          (f, inner.filter (fun ti => decide (eps < ti.2))) :: filterGraph rest := by
        simp [filterGraph, List.filter_cons, hemp]
      rw [hfg, directOf_cons]
    · have hfg : filterGraph ((f, inner) :: rest) = filterGraph rest := by
        simp [filterGraph, List.filter_cons, hemp]
      rw [hfg]
      rw [List.isEmpty_iff.mp hemp]
      simp

theorem filterGraph_wf (g : List (String × List (String × ℚ))) (hwf : GraphWF g) :
    GraphWF (filterGraph g) := by
  constructor
  · have hsub : (filterGraph g).Sublist (g.map
        (fun fi => (fi.1, fi.2.filter (fun ti => decide (eps < ti.2))))) :=
      List.filter_sublist _
    have hkeys : ((g.map (fun fi => (fi.1, fi.2.filter (fun ti => decide (eps < ti.2))))).map
        Prod.fst) = g.map Prod.fst := by
      rw [List.map_map]
      rfl
    have := (hsub.map Prod.fst).nodup (hkeys ▸ hwf.1)
    exact this
  · intro fi hfi
    simp only [filterGraph] at hfi
    have hfi2 := List.mem_of_mem_filter hfi
    rcases List.mem_map.mp hfi2 with ⟨fi0, hfi0, rfl⟩
    exact ((hwf.2 fi0 hfi0).sublist ((List.filter_sublist _).map Prod.fst))

theorem filterGraph_ne_nil (g : List (String × List (String × ℚ))) :
    ∀ fi ∈ filterGraph g, fi.2 ≠ [] := by
  intro fi hfi
  have := List.of_mem_filter hfi
  simp only [Bool.not_eq_false'] at this
  intro hnil
  rw [hnil] at this
  simp at this

theorem emitOf_eq_txnsOfGraph (g : List (String × List (String × ℚ))) :
    emitOf (directOf g) = txnsOfGraph (filterGraph g) := by
  have h1 : txnsOfGraph (filterGraph g) =
      (directOf (filterGraph g)).map (fun e => ⟨e.1.1, e.1.2, e.2⟩) := by
    simp only [txnsOfGraph, directOf, List.map_flatMap, List.map_map]
    rfl
  rw [h1, directOf_filterGraph]
  rfl

theorem mem_emitOf (d : List ((String × String) × ℚ)) (x : Txn) (hx : x ∈ emitOf d) :
    ∃ e ∈ d, x = ⟨e.1.1, e.1.2, e.2⟩ ∧ eps < e.2 := by
  rcases List.mem_map.mp hx with ⟨e, he, rfl⟩
  have h1 := List.mem_of_mem_filter he
  have h2 := List.of_mem_filter he
  simp only [decide_eq_true_eq] at h2
  exact ⟨e, h1, rfl, h2⟩

theorem pairsOf_emitOf_sub (d : List ((String × String) × ℚ)) (p : String × String)
    (hp : p ∈ pairsOf (emitOf d)) : p ∈ d.map Prod.fst := by
  rcases List.mem_map.mp hp with ⟨x, hx, rfl⟩
  rcases mem_emitOf d x hx with ⟨e, he, rfl, _⟩
  exact List.mem_map.mpr ⟨e, he, rfl⟩

theorem chainFree_of_pairs_sub (l l' : List Txn)
    (hsub : ∀ p ∈ pairsOf l, p ∈ pairsOf l') (h : ChainFree l') : ChainFree l :=
  fun p hp q hq r hr => h p (hsub p hp) q (hsub q hq) r (hsub r hr)

/-! ### Claim theorems -/

set_option maxHeartbeats 2000000

/-- C1 (code_bug): the balanced input `{A: 30, B: -30}` (A the net
debtor under the spec's sign convention) makes the engine emit the
single transaction `B → A, 30`; applying it by the spec's rule (the
`from` participant's balance decreases, the `to` participant's balance
increases) yields `{A: 60, B: -60}`, which is not within epsilon of
zero — the emitted payment direction is inverted relative to the sign
convention stated both by the spec and by `simplify_debts`'s own
docstring. -/
theorem settlement_application_diverges :
    ((30 : ℚ) + (-30) = 0) ∧
    minimize_transactions [("A", 30), ("B", -30)] = .ok [⟨"B", "A", 30⟩] ∧
    applySettlement [("A", 30), ("B", -30)] [⟨"B", "A", 30⟩] = [("A", 60), ("B", -60)] ∧
    ¬ |(60 : ℚ)| ≤ eps := by
  refine ⟨by norm_num, ?_, ?_, by norm_num [eps]⟩ <;>
  norm_num +decide [minimize_transactions, simplify_debts, greedyMatch, greedyAux,
    netBalancesOf, creditorsOf, debtorsOf, sortDesc, eps, List.filter_cons,
    _merge_transactions, buildGraph, addToGraph, addToInner, directOf, mergePass,
    scanIntermediates, lookupPair, subPair, delPair, applySettlement, applyTxn]

/-- C2 (code_bug): for the balance map `{A: 30, B: -30}` of the spec's
Scenario A, the engine returns exactly one transaction, but it is
`B → A, 30`, not the claimed `A → B, 30` — the direction is inverted. -/
theorem scenarioA_direction_inverted :
    minimize_transactions [("A", 30), ("B", -30)] = .ok [⟨"B", "A", 30⟩] ∧
    minimize_transactions [("A", 30), ("B", -30)] ≠ .ok [⟨"A", "B", 30⟩] := by
  have h : minimize_transactions [("A", 30), ("B", -30)] = .ok [⟨"B", "A", 30⟩] := by
    norm_num +decide [minimize_transactions, simplify_debts, greedyMatch, greedyAux,
      netBalancesOf, creditorsOf, debtorsOf, sortDesc, eps, List.filter_cons,
      _merge_transactions, buildGraph, addToGraph, addToInner, directOf, mergePass,
      scanIntermediates, lookupPair, subPair, delPair]
  refine ⟨h, ?_⟩
  rw [h]
  intro hc
  have := Except.ok.inj hc
  simp only [List.cons.injEq, Txn.mk.injEq] at this
  exact absurd this.1.1 (by decide)

/-- C3 (code_bug): `_merge_transactions` does not preserve net flow.
On `[A→B 10, B→C 10, A→C 5]` it returns `[A→B 10, A→C 5, B→C 5]`:
participant B's net flow (paid minus received) is `0` in the input but
`-5` in the output, because the `A→B` edge is emitted at its original
amount before the later merge step reduces it. -/
theorem merge_changes_net_flow :
    _merge_transactions [⟨"A", "B", 10⟩, ⟨"B", "C", 10⟩, ⟨"A", "C", 5⟩] =
      .ok [⟨"A", "B", 10⟩, ⟨"A", "C", 5⟩, ⟨"B", "C", 5⟩] ∧
    netFlow "B" [⟨"A", "B", 10⟩, ⟨"B", "C", 10⟩, ⟨"A", "C", 5⟩] = 0 ∧
    netFlow "B" [⟨"A", "B", 10⟩, ⟨"A", "C", 5⟩, ⟨"B", "C", 5⟩] = -5 := by
  refine ⟨?_, ?_, ?_⟩ <;>
  norm_num +decide [_merge_transactions, buildGraph, addToGraph, addToInner, directOf,
    mergePass, scanIntermediates, lookupPair, subPair, delPair, eps, netFlow,
    List.filter_cons]

/-- C4 (code_bug): the Consolidator never collapses a bare chain.  On
`[A→B 10, B→C 10]` — the exact example of its own docstring, which
promises the result `A→C 10` — it returns the input unchanged, because
the second pass only iterates over pairs that already have a direct
edge, so a missing `A→C` edge is never created. -/
theorem chain_not_collapsed :
    _merge_transactions [⟨"A", "B", 10⟩, ⟨"B", "C", 10⟩] =
      .ok [⟨"A", "B", 10⟩, ⟨"B", "C", 10⟩] ∧
    _merge_transactions [⟨"A", "B", 10⟩, ⟨"B", "C", 10⟩] ≠ .ok [⟨"A", "C", 10⟩] := by
  have h : _merge_transactions [⟨"A", "B", 10⟩, ⟨"B", "C", 10⟩] =
      .ok [⟨"A", "B", 10⟩, ⟨"B", "C", 10⟩] := by
    norm_num +decide [_merge_transactions, buildGraph, addToGraph, addToInner, directOf,
      mergePass, scanIntermediates, lookupPair, subPair, delPair, eps, List.filter_cons]
  refine ⟨h, ?_⟩
  rw [h]
  intro hc
  have := Except.ok.inj hc
  simp at this

/-- C8 (code_bug): `_merge_transactions` is not total.  On
`[A→C 10, A→B 10, B→C 10]` the merge step drives the `A→B` edge to
zero and deletes it from `direct_txns` while the enclosing loop is
iterating over that same dictionary, so the function raises
`RuntimeError: dictionary changed size during iteration` instead of
returning a list. -/
theorem merge_raises_on_triangle :
    _merge_transactions [⟨"A", "C", 10⟩, ⟨"A", "B", 10⟩, ⟨"B", "C", 10⟩] =
      .error "dictionary changed size during iteration" := by
  norm_num +decide [_merge_transactions, buildGraph, addToGraph, addToInner, directOf,
    mergePass, scanIntermediates, lookupPair, subPair, delPair, eps, List.filter_cons]

/-- C5: for every balance map (with distinct participant keys, as any
Python dict has), `minimize_transactions` terminates successfully and
the number of transactions it returns is at most `N - 1`, where `N` is
the number of participants whose absolute balance exceeds the `0.01`
epsilon (in particular `0` when `N = 0`, by truncated subtraction). -/
theorem minimize_transaction_count_bound (balances : List (String × ℚ))
    (h : (balances.map Prod.fst).Nodup) :
    ∃ l, minimize_transactions balances = .ok l ∧
      l.length ≤ (netBalancesOf balances).length - 1 := by
  have hok := merge_ok_of_chainFree (simplify_debts balances)
    (simplify_debts_chainFree balances h)
  refine ⟨emitOf (directOf (buildGraph (simplify_debts balances))), ?_, ?_⟩
  · simp only [minimize_transactions]
    exact hok
  · have h1 : (emitOf (directOf (buildGraph (simplify_debts balances)))).length ≤
        (directOf (buildGraph (simplify_debts balances))).length := by
      simp only [emitOf, List.length_map]
      exact List.length_filter_le _ _
    have h2 := buildGraph_direct_length (simplify_debts balances)
    have h3 := simplify_debts_length balances
    omega

/-- Witness for C5 at the concrete input `{A: 30, B: -30}`. -/
theorem minimize_transaction_count_bound_witness :
    ∃ l, minimize_transactions [("A", 30), ("B", -30)] = .ok l ∧
      l.length ≤ (netBalancesOf [("A", 30), ("B", -30)]).length - 1 :=
  minimize_transaction_count_bound [("A", 30), ("B", -30)] (by decide)

/-- C6 (counterexample): the unbalanced input `{A: 30, B: -20}` (sum
`10`, far beyond epsilon) is not rejected: the engine returns the
transaction list `[B → A, 20]` instead of signalling an
UnbalancedLedger error. -/
theorem unbalanced_input_not_rejected :
    ((30 : ℚ) + (-20) ≠ 0) ∧
    minimize_transactions [("A", 30), ("B", -20)] = .ok [⟨"B", "A", 20⟩] := by
  refine ⟨by norm_num, ?_⟩
  norm_num +decide [minimize_transactions, simplify_debts, greedyMatch, greedyAux,
    netBalancesOf, creditorsOf, debtorsOf, sortDesc, eps, List.filter_cons,
    _merge_transactions, buildGraph, addToGraph, addToInner, directOf, mergePass,
    scanIntermediates, lookupPair, subPair, delPair]

/-- C6 (amended): `simplify_debts`/`minimize_transactions` perform no
balance-sum validation at all: for every balance map (with distinct
keys) they return a transaction list, unbalanced inputs included — no
UnbalancedLedger rejection exists in the code. -/
theorem minimize_never_rejects (balances : List (String × ℚ))
    (h : (balances.map Prod.fst).Nodup) :
    ∃ l, minimize_transactions balances = .ok l := by
  refine ⟨emitOf (directOf (buildGraph (simplify_debts balances))), ?_⟩
  simp only [minimize_transactions]
  exact merge_ok_of_chainFree (simplify_debts balances)
    (simplify_debts_chainFree balances h)

/-- Witness for the amended C6 at the unbalanced input `{A: 30, B: -20}`. -/
theorem minimize_never_rejects_witness :
    ∃ l, minimize_transactions [("A", 30), ("B", -20)] = .ok l :=
  minimize_never_rejects [("A", 30), ("B", -20)] (by decide)

/-- C7 (counterexample): the Consolidator is not idempotent.  On
`t = [A→B 10, B→C 10, A→C 5]` one run succeeds with
`[A→B 10, A→C 5, B→C 5]`, but running it again on that output raises
`RuntimeError: dictionary changed size during iteration`, so
`Consolidate ∘ Consolidate ≠ Consolidate` at `t`. -/
theorem merge_not_idempotent :
    _merge_transactions [⟨"A", "B", 10⟩, ⟨"B", "C", 10⟩, ⟨"A", "C", 5⟩] =
      .ok [⟨"A", "B", 10⟩, ⟨"A", "C", 5⟩, ⟨"B", "C", 5⟩] ∧
    _merge_transactions [⟨"A", "B", 10⟩, ⟨"A", "C", 5⟩, ⟨"B", "C", 5⟩] =
      .error "dictionary changed size during iteration" := by
  constructor <;>
  norm_num +decide [_merge_transactions, buildGraph, addToGraph, addToInner, directOf,
    mergePass, scanIntermediates, lookupPair, subPair, delPair, eps, List.filter_cons]

theorem emitOf_filter_idem (d : List ((String × String) × ℚ)) :
    emitOf (d.filter (fun e => decide (eps < e.2))) = emitOf d := by
  simp [emitOf, List.filter_filter]

/-- C7 (amended): the Consolidator is idempotent on chain-free inputs —
transaction lists whose flow graph contains no two-edge chain
`(f, b), (b, t)` alongside an existing `(f, t)` edge (the only pattern
its second pass acts on).  On such inputs one run succeeds and a second
run reproduces the first run's output exactly. -/
theorem merge_idempotent_on_chainFree (t : List Txn) (h : ChainFree t) :
    ∃ l, _merge_transactions t = .ok l ∧ _merge_transactions l = .ok l := by
  refine ⟨emitOf (directOf (buildGraph t)), merge_ok_of_chainFree t h, ?_⟩
  have hwf := buildGraph_wf t
  have hcf2 : ChainFree (emitOf (directOf (buildGraph t))) :=
    chainFree_of_pairs_sub _ t
      (fun p hp => (mem_buildGraph_direct_keys t p).mp (pairsOf_emitOf_sub _ p hp)) h
  rw [merge_ok_of_chainFree _ hcf2]
  congr 1
  rw [emitOf_eq_txnsOfGraph (buildGraph t)]
  rw [buildGraph_txnsOfGraph (filterGraph (buildGraph t)) (filterGraph_wf _ hwf)
    (filterGraph_ne_nil _)]
  rw [directOf_filterGraph, emitOf_filter_idem]
  exact emitOf_eq_txnsOfGraph (buildGraph t)

/-- Witness for the amended C7 at the chain-free input `[A→B 10]`. -/
theorem merge_idempotent_on_chainFree_witness :
    ∃ l, _merge_transactions [⟨"A", "B", 10⟩] = .ok l ∧ _merge_transactions l = .ok l :=
  merge_idempotent_on_chainFree [⟨"A", "B", 10⟩] (by decide)

/-- C9 (counterexample): `simplify_debts` is not insertion-order
independent.  The two maps with the same pairs `{A: 10, B: 10, C: -20}`
and `{B: 10, A: 10, C: -20}` (a permutation) produce the transaction
lists `[C→A 10, C→B 10]` and `[C→B 10, C→A 10]`, which differ —
equal-amount ties follow insertion order, not participant identifier. -/
theorem simplify_order_dependent :
    List.Perm [(("A" : String), (10 : ℚ)), ("B", 10), ("C", -20)]
      [("B", 10), ("A", 10), ("C", -20)] ∧
    simplify_debts [("A", 10), ("B", 10), ("C", -20)] =
      [⟨"C", "A", 10⟩, ⟨"C", "B", 10⟩] ∧
    simplify_debts [("B", 10), ("A", 10), ("C", -20)] =
      [⟨"C", "B", 10⟩, ⟨"C", "A", 10⟩] ∧
    simplify_debts [("A", 10), ("B", 10), ("C", -20)] ≠
      simplify_debts [("B", 10), ("A", 10), ("C", -20)] := by
  have h1 : simplify_debts [("A", 10), ("B", 10), ("C", -20)] =
      [⟨"C", "A", 10⟩, ⟨"C", "B", 10⟩] := by
    norm_num +decide [simplify_debts, greedyMatch, greedyAux, netBalancesOf, creditorsOf,
      debtorsOf, sortDesc, eps, List.filter_cons]
  have h2 : simplify_debts [("B", 10), ("A", 10), ("C", -20)] =
      [⟨"C", "B", 10⟩, ⟨"C", "A", 10⟩] := by
    norm_num +decide [simplify_debts, greedyMatch, greedyAux, netBalancesOf, creditorsOf,
      debtorsOf, sortDesc, eps, List.filter_cons]
  refine ⟨List.Perm.swap _ _ _, h1, h2, ?_⟩
  rw [h1, h2]
  intro hc
  simp only [List.cons.injEq, Txn.mk.injEq] at hc
  exact absurd hc.1.2.1 (by decide)

theorem sortDesc_eq_of_perm (l1 l2 : List (String × ℚ)) (hperm : List.Perm l1 l2)
    (hdist : l1.Pairwise (fun x y => x.2 ≠ y.2)) : sortDesc l1 = sortDesc l2 := by
  haveI htot : IsTotal (String × ℚ) (fun x y => y.2 ≤ x.2) := ⟨fun a b => le_total b.2 a.2⟩
  haveI htr : IsTrans (String × ℚ) (fun x y => y.2 ≤ x.2) :=
    ⟨fun a b c hab hbc => le_trans hbc hab⟩
  haveI hanti : IsAntisymm (String × ℚ) (fun x y => y.2 < x.2) :=
    ⟨fun a b hab hba => absurd (lt_trans hab hba) (lt_irrefl _)⟩
  have hsym : ∀ {x y : String × ℚ}, x.2 ≠ y.2 → y.2 ≠ x.2 :=
    fun hxy => fun e => hxy e.symm
  have hp : List.Perm (sortDesc l1) (sortDesc l2) :=
    (sortDesc_perm l1).trans (hperm.trans (sortDesc_perm l2).symm)
  have hd1 : (sortDesc l1).Pairwise (fun x y => x.2 ≠ y.2) :=
    ((sortDesc_perm l1).pairwise_iff hsym).mpr hdist
  have hd2 : (sortDesc l2).Pairwise (fun x y => x.2 ≠ y.2) :=
    ((sortDesc_perm l2).pairwise_iff hsym).mpr ((hperm.pairwise_iff hsym).mp hdist)
  have hs1 : List.Sorted (fun x y : String × ℚ => y.2 ≤ x.2) (sortDesc l1) :=
    List.sorted_insertionSort _ _
  have hs2 : List.Sorted (fun x y : String × ℚ => y.2 ≤ x.2) (sortDesc l2) :=
    List.sorted_insertionSort _ _
  have hst1 : List.Sorted (fun x y : String × ℚ => y.2 < x.2) (sortDesc l1) :=
    (hs1.and hd1).imp (fun h => lt_of_le_of_ne h.1 (fun e => h.2 e.symm))
  have hst2 : List.Sorted (fun x y : String × ℚ => y.2 < x.2) (sortDesc l2) :=
    (hs2.and hd2).imp (fun h => lt_of_le_of_ne h.1 (fun e => h.2 e.symm))
  exact List.eq_of_perm_of_sorted hp hst1 hst2

/-- C9 (amended): `simplify_debts` is deterministic given a fixed entry
order; across insertion orders it is deterministic only when no two
creditors share an amount and no two debtors share an amount (ties are
broken by insertion order via the stable sort, not by participant
identifier): any two inputs with the same participant-to-balance pairs
and pairwise-distinct creditor and debtor amounts yield identical
transaction lists. -/
theorem simplify_deterministic_of_distinct_amounts (b1 b2 : List (String × ℚ))
    (hperm : List.Perm b1 b2)
    (hcred : (creditorsOf b1).Pairwise (fun x y => x.2 ≠ y.2))
    (hdebt : (debtorsOf b1).Pairwise (fun x y => x.2 ≠ y.2)) :
    simplify_debts b1 = simplify_debts b2 := by
  have hpc : List.Perm (creditorsOf b1) (creditorsOf b2) := (hperm.filter _).filter _
  have hpd : List.Perm (debtorsOf b1) (debtorsOf b2) := ((hperm.filter _).filter _).map _
  have hc := sortDesc_eq_of_perm _ _ hpc hcred
  have hd := sortDesc_eq_of_perm _ _ hpd hdebt
  simp only [simplify_debts, hc, hd]

/-- Witness for the amended C9 at `{A: 10, C: -10}` vs `{C: -10, A: 10}`. -/
theorem simplify_deterministic_witness :
    simplify_debts [("A", 10), ("C", -10)] = simplify_debts [("C", -10), ("A", 10)] := by
  apply simplify_deterministic_of_distinct_amounts
  · exact List.Perm.swap _ _ _
  · have h : creditorsOf [(("A" : String), (10 : ℚ)), ("C", -10)] = [("A", 10)] := by
      norm_num +decide [creditorsOf, netBalancesOf, eps, List.filter_cons]
    rw [h]
    exact List.pairwise_singleton _ _
  · have h : debtorsOf [(("A" : String), (10 : ℚ)), ("C", -10)] = [("C", 10)] := by
      norm_num +decide [debtorsOf, netBalancesOf, eps, List.filter_cons]
    rw [h]
    exact List.pairwise_singleton _ _

/-- C10: for every balance map (with distinct participant keys), every
transaction returned by `minimize_transactions` has distinct `from` and
`to` participants and a strictly positive amount. -/
theorem minimize_no_self_payment (balances : List (String × ℚ))
    (h : (balances.map Prod.fst).Nodup) (l : List Txn)
    (hl : minimize_transactions balances = .ok l) :
    ∀ x ∈ l, x.from_user ≠ x.to_user ∧ 0 < x.amount := by
  have hok := merge_ok_of_chainFree (simplify_debts balances)
    (simplify_debts_chainFree balances h)
  simp only [minimize_transactions] at hl
  rw [hok] at hl
  obtain rfl := Except.ok.inj hl
  intro x hx
  rcases mem_emitOf _ x hx with ⟨e, he, rfl, hea⟩
  have hk : e.1 ∈ (directOf (buildGraph (simplify_debts balances))).map Prod.fst :=
    List.mem_map.mpr ⟨e, he, rfl⟩
  have hp : e.1 ∈ pairsOf (simplify_debts balances) :=
    (mem_buildGraph_direct_keys _ _).mp hk
  rcases (mem_pairsOf _ _).mp hp with ⟨t, ht, heq⟩
  obtain ⟨hto, hfrom, _⟩ := simplify_debts_mem balances t ht
  constructor
  · intro hcontra
    simp only [] at hcontra
    rw [heq] at hcontra
    simp only [] at hcontra
    rw [hcontra] at hfrom
    exact creditor_debtor_disjoint balances h t.to_user hto hfrom
  · have h0 : (0 : ℚ) < eps := by norm_num [eps]
    exact lt_trans h0 hea

/-- Witness for C10 at the concrete input `{A: 30, B: -30}`, whose
output list is `[B → A, 30]`. -/
theorem minimize_no_self_payment_witness :
    (⟨"B", "A", 30⟩ : Txn).from_user ≠ (⟨"B", "A", 30⟩ : Txn).to_user ∧
      0 < (⟨"B", "A", 30⟩ : Txn).amount := by
  have h := minimize_no_self_payment [("A", 30), ("B", -30)] (by decide)
    [⟨"B", "A", 30⟩]
    (by
      norm_num +decide [minimize_transactions, simplify_debts, greedyMatch, greedyAux,
        netBalancesOf, creditorsOf, debtorsOf, sortDesc, eps, List.filter_cons,
        _merge_transactions, buildGraph, addToGraph, addToInner, directOf, mergePass,
        scanIntermediates, lookupPair, subPair, delPair])
  exact h ⟨"B", "A", 30⟩ (List.mem_cons_self _ _)

end DebtSimplifier
